import Mathlib

/-!
Verification of `junos_prefix_summarize.py`.

The script works on IPv4 CIDR blocks (`ipaddress.IPv4Network` values).  A
network value is the pair (network address, prefixlen); `IPv4Network`
normalizes the address by masking the host bits (`strict=False`), so every
value reaching the algorithms is canonical, but none of the theorems below
assume canonicity unless stated.

Python `set`s of networks are modelled as `List Net`: the script only ever
observes a set through membership (`in`), `add`, `remove`, `len`, and
`sorted(...)` with the injective key `(network_address, prefixlen)`, all of
which are order- and duplicate-insensitive in the way they are used, so a
list with `add = append-if-absent` and `remove = List.erase` is a faithful
refinement.  Sorting is made explicit with `sortNets` exactly where the
source sorts.

The `while changed` loop of `exact_pairwise_merge` is modelled with fuel:
each executed merge removes two distinct members and inserts one, so the
working list shrinks strictly at every iteration and `l.length` iterations
always suffice (`step_mergeIter_none` and `step_exact_pairwise_merge_none`
below prove that this fuel bound reaches the loop's exit condition).
-/

/-- An IPv4 CIDR block as held by `ipaddress.IPv4Network`:
`base` is the integer network address, `len` the prefix length. -/
structure Net where
  base : Nat
  len : Nat
deriving DecidableEq

/-- Python `int(n.broadcast_address)`: last address of the block. -/
def Net.broadcast (n : Net) : Nat := n.base + 2 ^ (32 - n.len) - 1

/-- Mask an address down to the first `l` bits
(`int(addr) & int(netmask(l))` for `l ≤ 32`). -/
def maskBase (x l : Nat) : Nat := x / 2 ^ (32 - l) * 2 ^ (32 - l)

/-- Python `n.supernet(prefixlen_diff=1)`: the enclosing block one bit shorter.
Python raises `ValueError` when `prefixlen - 1 < 0`; the source wraps the
call in `try/except` and turns the exception into `None`. -/
def supernet1? (n : Net) : Option Net :=
  if n.len = 0 then none else some ⟨maskBase n.base (n.len - 1), n.len - 1⟩

/-- Python `list(c.subnets(prefixlen_diff=1))`: the two halves of `c`, in order. -/
def subnetsPair (c : Net) : Net × Net :=
  (⟨c.base, c.len + 1⟩, ⟨c.base + 2 ^ (32 - (c.len + 1)), c.len + 1⟩)

/-- Python `a.subnet_of(b)` for IPv4 networks: `b`'s range contains `a`'s. -/
def subnet_of (a b : Net) : Bool :=
  decide (b.base ≤ a.base) && decide (a.broadcast ≤ b.broadcast)

/-- The sort key used throughout the source:
`key=lambda n: (int(n.network_address), n.prefixlen)`, lexicographically. -/
def netLE (a b : Net) : Prop :=
  a.base < b.base ∨ (a.base = b.base ∧ a.len ≤ b.len)

instance : DecidableRel netLE := fun a b => by
  unfold netLE; infer_instance

instance : IsTotal Net netLE where
  total a b := by unfold netLE; omega

instance : IsTrans Net netLE where
  trans a b c := by unfold netLE; omega

/-- Python `sorted(nets, key=(int(n.network_address), n.prefixlen))`. -/
def sortNets (l : List Net) : List Net := List.insertionSort netLE l

/-- Python `set.add`: a no-op when the element is already present. -/
def pyAdd (v : Net) (l : List Net) : List Net :=
  if v ∈ l then l else l ++ [v]

/-- The merge-eligibility test of lines 101–110 of the source: same
prefixlen, numerically adjacent, and `a`, `b` are exactly the two halves
(`subs[0]`, `subs[1]`) of `a`'s one-bit supernet. -/
def eligible (a b : Net) : Bool :=
  decide (a.len = b.len) && decide (a.broadcast + 1 = b.base) &&
    (match supernet1? a with
     | none => false
     | some cand =>
         decide (a = (subnetsPair cand).1) && decide (b = (subnetsPair cand).2))

/-- The inner `while i < len(sorted_nets) - 1` scan: the first eligible
adjacent pair of the sorted working list, if any (the source `break`s at
the first hit). -/
def findPair : List Net → Option (Net × Net)
  | a :: b :: rest => if eligible a b then some (a, b) else findPair (b :: rest)
  | _ => none

/-- One iteration of the `while changed` loop: sort, scan, and on a hit
perform `nets.remove(a); nets.remove(b); nets.add(cand)`.  `none` means a
full sweep found no merge, which ends the loop. -/
def step (l : List Net) : Option (List Net) :=
  match findPair (sortNets l) with
  | none => none
  | some (a, b) =>
      match supernet1? a with
      | none => none
      | some cand => some (pyAdd cand ((l.erase a).erase b))

/-- The `while changed` loop, with fuel. -/
def mergeIter : Nat → List Net → List Net
  | 0, l => l
  | fuel + 1, l =>
      match step l with
      | none => l
      | some t => mergeIter fuel t

/-- Function `exact_pairwise_merge` (lines 82–120): run the loop to its fixed
point; `l.length` fuel suffices because each merge strictly shrinks the
working list. -/
def exact_pairwise_merge (l : List Net) : List Net := mergeIter l.length l

/-- Lines 132–138: originals not present as-is in `final` and covered by
some final network, in ascending `(base, len)` order. -/
def to_delete_of (original final : List Net) : List Net :=
  (sortNets original).filter
    (fun o => !decide (o ∈ final) && final.any (fun f => subnet_of o f))

/-- Lines 141–147: final networks not present as-is in `original` that
cover at least one deleted network, in ascending `(base, len)` order. -/
def to_set_of (original final td : List Net) : List Net :=
  (sortNets final).filter
    (fun f => !decide (f ∈ original) && td.any (fun d => subnet_of d f))

/-- The comparison part of `generate_changes_for_pl` (lines 131–148),
as a function of the original and final sets. -/
def generate_changes_core (original final : List Net) : List Net × List Net :=
  let td := to_delete_of original final
  (td, to_set_of original final td)

/-- Function `generate_changes_for_pl` (lines 122–149): aggregate, then compare.
Returns `((to_delete, to_set), original_count)`. -/
def generate_changes_for_pl (original : List Net) : (List Net × List Net) × Nat :=
  (generate_changes_core original (exact_pairwise_merge original), original.length)

/-- An address `x` lies in the block `n`. -/
def inNet (x : Nat) (n : Net) : Prop :=
  n.base ≤ x ∧ x < n.base + 2 ^ (32 - n.len)

instance (x : Nat) (n : Net) : Decidable (inNet x n) := by
  unfold inNet; infer_instance

/-- An address `x` is covered by the union of the blocks in `l`. -/
def covered (l : List Net) (x : Nat) : Prop := ∃ n ∈ l, inNet x n

instance (l : List Net) (x : Nat) : Decidable (covered l x) := by
  unfold covered; infer_instance

/-- Every network the script can actually build has `len ≤ 32`
(`IPv4Network` enforces it, and merging only shortens lengths). -/
def ValidNets (l : List Net) : Prop := ∀ n ∈ l, n.len ≤ 32

/-!
## Parser (`PREFIX_RE` and `parse_prefix_lists`, lines 63–80)

`PREFIX_RE.findall` is embedded as a deterministic matcher.  Backtracking
in the pattern
`set\s+policy-options\s+prefix-list\s+(\S+)\s+(\d{1,3}(?:\.\d{1,3}){3}/\d{1,2})`
is degenerate: every `\s+`/`\S+`/octet boundary is forced (a shorter
greedy choice always places the next pattern element on a character of
the wrong class), so each component simply consumes its maximal run:
`\S+` the maximal non-whitespace run, `\s+` the maximal whitespace run,
`\d{1,3}` the maximal digit run (failing when that run is empty or longer
than 3), and the final `\d{1,2}` — which ends the pattern, so nothing
constrains it from the right — the first `min 2` characters of a nonempty
digit run.  `re.IGNORECASE` only affects the ASCII letters of the three
literals.  `findall` scans left to right and resumes after the end of
each match; the scan is embedded with fuel `s.length`, which suffices
because every iteration consumes at least one character.
-/

/-- Python `\s` on the ASCII range. -/
def pySpace (c : Char) : Bool :=
  c = ' ' || c = '\t' || c = '\n' || c = '\r' || c = '\x0b' || c = '\x0c'

/-- Case-insensitive match of one pattern character `p` (the literals in
the pattern are lowercase ASCII) against an input character. -/
def ciEq (p c : Char) : Bool :=
  c = p || ('a' ≤ p && p ≤ 'z' && c.toNat + 32 = p.toNat)

/-- Consume a literal, case-insensitively. -/
def dropLitCI : List Char → List Char → Option (List Char)
  | [], s => some s
  | _ :: _, [] => none
  | p :: ps, c :: cs => if ciEq p c then dropLitCI ps cs else none

/-- Consume `\s+` (maximal, at least one). -/
def ws1 : List Char → Option (List Char)
  | [] => none
  | c :: cs => if pySpace c then some (cs.dropWhile pySpace) else none

/-- Consume `(\S+)` (maximal, at least one); returns (token, rest). -/
def nonWs1 : List Char → Option (List Char × List Char)
  | [] => none
  | c :: cs =>
      if pySpace c then none
      else some (c :: cs.takeWhile (fun x => !pySpace x),
                 cs.dropWhile (fun x => !pySpace x))

/-- Consume `\d{1,3}` followed by a non-digit (or the end): the maximal
digit run, failing when it is empty or longer than three. -/
def octetTok (s : List Char) : Option (List Char × List Char) :=
  let t := s.takeWhile Char.isDigit
  if t.length = 0 ∨ 3 < t.length then none else some (t, s.dropWhile Char.isDigit)

/-- Consume one expected character. -/
def oneChar (e : Char) : List Char → Option (List Char)
  | [] => none
  | c :: cs => if c = e then some cs else none

/-- Consume the fixed head of the pattern:
`set\s+policy-options\s+prefix-list\s+`. -/
def matchHead (s : List Char) : Option (List Char) :=
  (dropLitCI "set".data s).bind fun s1 =>
  (ws1 s1).bind fun s2 =>
  (dropLitCI "policy-options".data s2).bind fun s3 =>
  (ws1 s3).bind fun s4 =>
  (dropLitCI "prefix-list".data s4).bind fun s5 =>
  ws1 s5

/-- Consume `\d{1,3}\.`: an octet followed by a dot. -/
def octetDot (s : List Char) : Option (List Char × List Char) :=
  (octetTok s).bind fun p => (oneChar '.' p.2).map fun r => (p.1, r)

/-- Consume the captured CIDR group `(\d{1,3}(?:\.\d{1,3}){3}/\d{1,2})`:
returns the captured text and the rest of the line. -/
def matchCidr (s : List Char) : Option (List Char × List Char) :=
  (octetDot s).bind fun p1 =>
  (octetDot p1.2).bind fun p2 =>
  (octetDot p2.2).bind fun p3 =>
  (octetTok p3.2).bind fun p4 =>
  (oneChar '/' p4.2).bind fun s5 =>
  let run := (s5.takeWhile Char.isDigit).take 2
  if run.length = 0 then none
  else
    some (p1.1 ++ ['.'] ++ p2.1 ++ ['.'] ++ p3.1 ++ ['.'] ++ p4.1 ++ ['/'] ++ run,
          s5.drop run.length)

/-- Attempt `PREFIX_RE` at the start of `s`.  Returns the two captured
groups (the list name and the CIDR text) and the rest of the line after
the match. -/
def matchAt (s : List Char) : Option (List Char × List Char × List Char) :=
  (matchHead s).bind fun s1 =>
  (nonWs1 s1).bind fun nm =>
  (ws1 nm.2).bind fun s2 =>
  (matchCidr s2).map fun c => (nm.1, c.1, c.2)

/-- The `PREFIX_RE.findall` scan: try each position left to right, resuming
after the end of a match.  Fuel: each iteration consumes ≥ 1 character. -/
def findAllAux : Nat → List Char → List (List Char × List Char)
  | 0, _ => []
  | fuel + 1, s =>
      match s with
      | [] => []
      | c :: rest =>
          match matchAt (c :: rest) with
          | some (nm, cidr, remaining) => (nm, cidr) :: findAllAux fuel remaining
          | none => findAllAux fuel rest

/-- Python `PREFIX_RE.findall(ln)`. -/
def findAll (s : List Char) : List (List Char × List Char) :=
  findAllAux s.length s

/-- Python `str.split(sep)` on character lists. -/
def splitOnChar (sep : Char) : List Char → List (List Char)
  | [] => [[]]
  | c :: rest =>
      if c = sep then [] :: splitOnChar sep rest
      else
        match splitOnChar sep rest with
        | t :: ts => (c :: t) :: ts
        | [] => [[c]]

/-- Decimal value of a digit string. -/
def natOfDigits (t : List Char) : Nat :=
  t.foldl (fun acc c => 10 * acc + (c.toNat - 48)) 0

/-- Python `ipaddress._parse_octet`: 1–3 digits, no ambiguous leading zero,
value at most 255. -/
def parseOctet (t : List Char) : Option Nat :=
  if t.length = 0 ∨ 3 < t.length then none
  else if !t.all Char.isDigit then none
  else if 1 < t.length ∧ t.head? = some '0' then none
  else if 255 < natOfDigits t then none
  else some (natOfDigits t)

/-- Python `ipaddress._prefix_from_prefix_string`: digits only, value ≤ 32. -/
def parseLenTok (t : List Char) : Option Nat :=
  if t.length = 0 ∨ !t.all Char.isDigit then none
  else if 32 < natOfDigits t then none
  else some (natOfDigits t)

/-- Python `ipaddress.IPv4Network(text, strict=False)` on the captured CIDR text
(which by construction contains exactly one '/'): parse the four octets
and the length, then mask the host bits.  Any failure is the
`ValueError` that line 77 of the source turns into a silent skip. -/
def ipv4NetworkOfChars (s : List Char) : Option Net :=
  match splitOnChar '/' s with
  | [addr, lenTok] =>
      (match splitOnChar '.' addr with
       | [t1, t2, t3, t4] => do
           let a ← parseOctet t1
           let b ← parseOctet t2
           let c ← parseOctet t3
           let d ← parseOctet t4
           let l ← parseLenTok lenTok
           pure ⟨maskBase (((a * 256 + b) * 256 + c) * 256 + d) l, l⟩
       | _ => none)
  | _ => none

/-- The per-name map `pl` (a `defaultdict(set)`): absent names map to the
empty set. -/
abbrev PlMap := List Char → List Net

/-- Process the matches of one line in order:
`pl[name].add(net)` on success, silent skip on `ValueError`. -/
def applyMatches : List (List Char × List Char) → PlMap → PlMap
  | [], m => m
  | (nm, cidr) :: rest, m =>
      applyMatches rest
        (match ipv4NetworkOfChars cidr with
         | some net => fun k => if k = nm then pyAdd net (m k) else m k
         | none => m)

/-- Fold `parse_prefix_lists`'s outer loop over the lines. -/
def parseAux : List (List Char) → PlMap → PlMap
  | [], m => m
  | ln :: rest, m => parseAux rest (applyMatches (findAll ln) m)

/-- Function `parse_prefix_lists` (lines 68–80): name → set of parsed networks. -/
def parse_prefix_lists (lines : List (List Char)) : PlMap :=
  parseAux lines (fun _ => [])

/-!
## Object-store model (for the non-mutation contract)

Python sets are heap objects mutated in place; to state that
`exact_pairwise_merge` and `generate_changes_for_pl` never mutate the set
they are given, the heap is modelled as a list of set-objects indexed by
position.  `exact_pairwise_merge` first evaluates `set(networks_set)`
(line 90), allocating a fresh object; every `remove`/`add` of the loop
targets that fresh object; the function returns its reference.
`generate_changes_for_pl` likewise copies at line 128 before calling the
aggregator.
-/

abbrev Store := List (List Net)

/-- One loop iteration acting on the store: all three mutations of lines
112–114 target the object at `r`. -/
def stepSt (r : Nat) (st : Store) : Option Store :=
  match step (st.getD r []) with
  | none => none
  | some t => some (st.set r t)

/-- The `while changed` loop on the store, mutating only slot `r`. -/
def mergeIterSt : Nat → Nat → Store → Store
  | 0, _, st => st
  | fuel + 1, r, st =>
      match stepSt r st with
      | none => st
      | some st' => mergeIterSt fuel r st'

/-- Function `exact_pairwise_merge` at store level: copy the argument into a fresh
object (line 90), run the loop on the copy, return its reference. -/
def exact_pairwise_merge_st (st : Store) (r : Nat) : Nat × Store :=
  let nets := st.getD r []
  (st.length, mergeIterSt nets.length st.length (st ++ [nets]))

/-- Function `generate_changes_for_pl` at store level: copy the argument
(line 128), aggregate the copy, then compute the diff lists (pure reads).
Returns (result triple, final-set reference, store). -/
def generate_changes_for_pl_st (st : Store) (r : Nat) :
    ((List Net × List Net) × Nat) × Nat × Store :=
  let ro := st.length
  let st1 := st ++ [st.getD r []]
  let rf := (exact_pairwise_merge_st st1 ro).1
  let st2 := (exact_pairwise_merge_st st1 ro).2
  ((generate_changes_core (st2.getD ro []) (st2.getD rf []),
    (st2.getD ro []).length), rf, st2)

/-! ## Basic lemmas about the working-set operations -/

lemma mem_pyAdd {n v : Net} {l : List Net} : n ∈ pyAdd v l ↔ n = v ∨ n ∈ l := by
  unfold pyAdd
  split
  · constructor
    · exact fun h => Or.inr h
    · rintro (rfl | h) <;> assumption
  · simp [or_comm]

lemma mem_sortNets {n : Net} {l : List Net} : n ∈ sortNets l ↔ n ∈ l :=
  (List.perm_insertionSort netLE l).mem_iff

lemma findPair_spec {L : List Net} {a b : Net} (h : findPair L = some (a, b)) :
    a ∈ L ∧ b ∈ L ∧ eligible a b = true := by
  induction L with
  | nil => simp [findPair] at h
  | cons x rest ih =>
      cases rest with
      | nil => simp [findPair] at h
      | cons y rest' =>
          rw [findPair] at h
          split at h
          · rename_i helig
            simp only [Option.some.injEq, Prod.mk.injEq] at h
            obtain ⟨rfl, rfl⟩ := h
            exact ⟨List.mem_cons_self .., List.mem_cons_of_mem _ (List.mem_cons_self ..), helig⟩
          · obtain ⟨ha, hb, he⟩ := ih h
            exact ⟨List.mem_cons_of_mem _ ha, List.mem_cons_of_mem _ hb, he⟩

/-- Structure of an eligible pair: `a` has positive length, sits on a
one-shorter boundary, and `b` is its upper sibling. -/
lemma eligible_spec {a b : Net} (h : eligible a b = true) :
    1 ≤ a.len ∧ b.len = a.len ∧ b.base = a.base + 2 ^ (32 - a.len) ∧
      supernet1? a = some ⟨a.base, a.len - 1⟩ := by
  unfold eligible at h
  rw [Bool.and_eq_true, Bool.and_eq_true] at h
  obtain ⟨⟨hlen, hadj⟩, hsup⟩ := h
  rw [decide_eq_true_eq] at hlen
  cases hs : supernet1? a with
  | none => rw [hs] at hsup; simp at hsup
  | some cand =>
      rw [hs] at hsup
      simp only [Bool.and_eq_true, decide_eq_true_eq] at hsup
      obtain ⟨ha, hb⟩ := hsup
      unfold supernet1? at hs
      split at hs
      · exact absurd hs (by simp)
      · rename_i hlen0
        have hcand : cand = ⟨maskBase a.base (a.len - 1), a.len - 1⟩ :=
          (Option.some.inj hs).symm
        subst hcand
        simp only [subnetsPair] at ha hb
        have habase : a.base = maskBase a.base (a.len - 1) := congrArg Net.base ha
        have halen : a.len = a.len - 1 + 1 := congrArg Net.len ha
        have hbbase :
            b.base = maskBase a.base (a.len - 1) + 2 ^ (32 - (a.len - 1 + 1)) :=
          congrArg Net.base hb
        have hblen : b.len = a.len - 1 + 1 := congrArg Net.len hb
        refine ⟨by omega, by omega, ?_, ?_⟩
        · rw [hbbase, ← habase]
          congr 2
          omega
        · rw [← habase]

lemma eligible_ne {a b : Net} (h : eligible a b = true) : a ≠ b := by
  obtain ⟨_, _, hb, _⟩ := eligible_spec h
  intro hab
  rw [← hab] at hb
  have : 0 < 2 ^ (32 - a.len) := Nat.pos_pow_of_pos _ (by norm_num)
  omega

/-- Anatomy of a successful loop iteration. -/
lemma step_spec {l t : List Net} (h : step l = some t) :
    ∃ a b, a ∈ l ∧ b ∈ l ∧ eligible a b = true ∧
      t = pyAdd ⟨a.base, a.len - 1⟩ ((l.erase a).erase b) := by
  unfold step at h
  cases hfp : findPair (sortNets l) with
  | none => rw [hfp] at h; exact absurd h (by simp)
  | some p =>
      obtain ⟨a, b⟩ := p
      rw [hfp] at h
      simp only at h
      obtain ⟨ha, hb, helig⟩ := findPair_spec hfp
      obtain ⟨_, _, _, hsup⟩ := eligible_spec helig
      rw [hsup] at h
      simp only [Option.some.injEq] at h
      exact ⟨a, b, mem_sortNets.mp ha, mem_sortNets.mp hb, helig, h.symm⟩

/-! ## Termination of the merge loop -/

lemma length_pyAdd_le (v : Net) (l : List Net) :
    (pyAdd v l).length ≤ l.length + 1 := by
  unfold pyAdd
  split
  · omega
  · simp

/-- Every executed merge strictly shrinks the working set: two distinct
members are removed and at most one element is inserted. -/
lemma step_length {l t : List Net} (h : step l = some t) : t.length < l.length := by
  obtain ⟨a, b, ha, hb, helig, rfl⟩ := step_spec h
  have hne : a ≠ b := eligible_ne helig
  have hb' : b ∈ l.erase a := List.mem_erase_of_ne (Ne.symm hne) |>.mpr hb
  have h1 : (l.erase a).length = l.length - 1 := List.length_erase_of_mem ha
  have h2 : ((l.erase a).erase b).length = (l.erase a).length - 1 :=
    List.length_erase_of_mem hb'
  have h3 := length_pyAdd_le ⟨a.base, a.len - 1⟩ ((l.erase a).erase b)
  have hlen : 0 < l.length := List.length_pos_of_mem ha
  have hlen2 : 0 < (l.erase a).length := List.length_pos_of_mem hb'
  omega

lemma mergeIter_of_step_none {l : List Net} (h : step l = none) (fuel : Nat) :
    mergeIter fuel l = l := by
  cases fuel with
  | zero => rfl
  | succ f => rw [mergeIter, h]

/-- Fuel `l.length` always reaches the loop's exit condition. -/
lemma step_mergeIter_none : ∀ fuel (l : List Net), l.length ≤ fuel →
    step (mergeIter fuel l) = none := by
  intro fuel
  induction fuel with
  | zero =>
      intro l hl
      have : l = [] := List.eq_nil_of_length_eq_zero (by omega)
      subst this
      rfl
  | succ f ih =>
      intro l hl
      rw [mergeIter]
      cases hs : step l with
      | none => exact hs
      | some t =>
          have := step_length hs
          exact ih t (by omega)

/-- The returned set is a fixed point of the loop body: a full sweep over
it finds no merge. -/
lemma step_exact_pairwise_merge_none (l : List Net) :
    step (exact_pairwise_merge l) = none :=
  step_mergeIter_none l.length l le_rfl

/-! ## Coverage arithmetic of a single merge -/

/-- For an eligible pair with a feasible length, the candidate supernet
covers exactly the union of the two halves. -/
lemma inNet_cand_iff {a b : Net} (helig : eligible a b = true)
    (hlen : a.len ≤ 32) (x : Nat) :
    inNet x ⟨a.base, a.len - 1⟩ ↔ inNet x a ∨ inNet x b := by
  obtain ⟨hpos, hblen, hbbase, _⟩ := eligible_spec helig
  unfold inNet
  simp only [hblen, hbbase]
  have hexp : 32 - (a.len - 1) = (32 - a.len) + 1 := by omega
  rw [hexp, pow_succ]
  have hm : 0 < 2 ^ (32 - a.len) := Nat.pos_pow_of_pos _ (by norm_num)
  omega

lemma subnet_of_cand_left {a b : Net} (helig : eligible a b = true)
    (hlen : a.len ≤ 32) : subnet_of a ⟨a.base, a.len - 1⟩ = true := by
  obtain ⟨hpos, _, _, _⟩ := eligible_spec helig
  unfold subnet_of Net.broadcast
  simp only [Bool.and_eq_true, decide_eq_true_eq]
  have hexp : 32 - (a.len - 1) = (32 - a.len) + 1 := by omega
  rw [hexp, pow_succ]
  have hm : 0 < 2 ^ (32 - a.len) := Nat.pos_pow_of_pos _ (by norm_num)
  omega

lemma subnet_of_cand_right {a b : Net} (helig : eligible a b = true)
    (hlen : a.len ≤ 32) : subnet_of b ⟨a.base, a.len - 1⟩ = true := by
  obtain ⟨hpos, hblen, hbbase, _⟩ := eligible_spec helig
  unfold subnet_of Net.broadcast
  simp only [Bool.and_eq_true, decide_eq_true_eq, hblen, hbbase]
  have hexp : 32 - (a.len - 1) = (32 - a.len) + 1 := by omega
  rw [hexp, pow_succ]
  have hm : 0 < 2 ^ (32 - a.len) := Nat.pos_pow_of_pos _ (by norm_num)
  omega

/-! ## Invariants of the merge loop -/

lemma step_valid {l t : List Net} (h : step l = some t) (hv : ValidNets l) :
    ValidNets t := by
  obtain ⟨a, b, ha, _, _, rfl⟩ := step_spec h
  intro n hn
  rcases mem_pyAdd.mp hn with rfl | hn'
  · have := hv a ha
    simp only
    omega
  · exact hv n (List.erase_subset _ _ (List.erase_subset _ _ hn'))

lemma step_covered {l t : List Net} (h : step l = some t) (hv : ValidNets l)
    (x : Nat) : covered t x ↔ covered l x := by
  obtain ⟨a, b, ha, hb, helig, rfl⟩ := step_spec h
  have hlen : a.len ≤ 32 := hv a ha
  constructor
  · rintro ⟨n, hn, hx⟩
    rcases mem_pyAdd.mp hn with rfl | hn'
    · rcases (inNet_cand_iff helig hlen x).mp hx with h' | h'
      · exact ⟨a, ha, h'⟩
      · exact ⟨b, hb, h'⟩
    · exact ⟨n, List.erase_subset _ _ (List.erase_subset _ _ hn'), hx⟩
  · rintro ⟨n, hn, hx⟩
    by_cases hna : n = a
    · subst hna
      exact ⟨⟨n.base, n.len - 1⟩, mem_pyAdd.mpr (Or.inl rfl),
        (inNet_cand_iff helig hlen x).mpr (Or.inl hx)⟩
    · by_cases hnb : n = b
      · subst hnb
        exact ⟨⟨a.base, a.len - 1⟩, mem_pyAdd.mpr (Or.inl rfl),
          (inNet_cand_iff helig hlen x).mpr (Or.inr hx)⟩
      · exact ⟨n, mem_pyAdd.mpr (Or.inr (List.mem_erase_of_ne hnb |>.mpr
          (List.mem_erase_of_ne hna |>.mpr hn))), hx⟩

/-- Transitivity of range containment. -/
lemma subnet_of_trans {a b c : Net} (h1 : subnet_of a b = true)
    (h2 : subnet_of b c = true) : subnet_of a c = true := by
  unfold subnet_of at *
  simp only [Bool.and_eq_true, decide_eq_true_eq] at *
  omega

lemma subnet_of_refl (a : Net) : subnet_of a a = true := by
  unfold subnet_of
  simp

/-- A merge step keeps every already-covered block covered (the two
merged halves become covered by the inserted supernet). -/
lemma step_coverup {l t : List Net} (h : step l = some t) (hv : ValidNets l)
    (o : Net) (hc : ∃ f ∈ l, subnet_of o f = true) :
    ∃ f ∈ t, subnet_of o f = true := by
  obtain ⟨a, b, ha, hb, helig, rfl⟩ := step_spec h
  have hlen : a.len ≤ 32 := hv a ha
  obtain ⟨f, hf, hof⟩ := hc
  by_cases hfa : f = a
  · subst hfa
    exact ⟨⟨f.base, f.len - 1⟩, mem_pyAdd.mpr (Or.inl rfl),
      subnet_of_trans hof (subnet_of_cand_left helig hlen)⟩
  · by_cases hfb : f = b
    · subst hfb
      exact ⟨⟨a.base, a.len - 1⟩, mem_pyAdd.mpr (Or.inl rfl),
        subnet_of_trans hof (subnet_of_cand_right helig hlen)⟩
    · exact ⟨f, mem_pyAdd.mpr (Or.inr (List.mem_erase_of_ne hfb |>.mpr
        (List.mem_erase_of_ne hfa |>.mpr hf))), hof⟩

lemma mergeIter_valid : ∀ fuel (l : List Net), ValidNets l →
    ValidNets (mergeIter fuel l) := by
  intro fuel
  induction fuel with
  | zero => exact fun l hv => hv
  | succ f ih =>
      intro l hv
      rw [mergeIter]
      cases hs : step l with
      | none => exact hv
      | some t => exact ih t (step_valid hs hv)

lemma mergeIter_covered : ∀ fuel (l : List Net), ValidNets l → ∀ x,
    (covered (mergeIter fuel l) x ↔ covered l x) := by
  intro fuel
  induction fuel with
  | zero => exact fun l _ x => Iff.rfl
  | succ f ih =>
      intro l hv x
      rw [mergeIter]
      cases hs : step l with
      | none => exact Iff.rfl
      | some t => exact (ih t (step_valid hs hv) x).trans (step_covered hs hv x)

lemma mergeIter_coverup : ∀ fuel (l : List Net), ValidNets l → ∀ o,
    (∃ f ∈ l, subnet_of o f = true) →
    ∃ f ∈ mergeIter fuel l, subnet_of o f = true := by
  intro fuel
  induction fuel with
  | zero => exact fun l _ o hc => hc
  | succ f ih =>
      intro l hv o hc
      rw [mergeIter]
      cases hs : step l with
      | none => exact hc
      | some t => exact ih t (step_valid hs hv) o (step_coverup hs hv o hc)

instance (l : List Net) : Decidable (ValidNets l) := by
  unfold ValidNets; infer_instance

/-! ## Claim C1 — coverage preservation -/

/-- C1: for every finite input set of networks (all of the lengths the
source can construct), the union of addresses covered by the output of
`exact_pairwise_merge` is exactly the union covered by the input: no
address is gained and none is lost. -/
theorem c1_coverage_preservation (l : List Net) (hv : ValidNets l) (x : Nat) :
    covered (exact_pairwise_merge l) x ↔ covered l x :=
  mergeIter_covered l.length l hv x

theorem c1_coverage_preservation_witness :
    ValidNets [⟨0x0A000000, 24⟩, ⟨0x0A000100, 24⟩] ∧
      (covered (exact_pairwise_merge [⟨0x0A000000, 24⟩, ⟨0x0A000100, 24⟩])
          0x0A000010 ↔
        covered [⟨0x0A000000, 24⟩, ⟨0x0A000100, 24⟩] 0x0A000010) :=
  ⟨by decide, c1_coverage_preservation _ (by decide) _⟩

/-! ## Claim C4 — idempotence -/

/-- C4: the aggregator is idempotent: applied to its own output it
returns that output unchanged (the first sweep over the output finds no
merge, exactly the loop's exit condition). -/
theorem c4_idempotent (l : List Net) :
    exact_pairwise_merge (exact_pairwise_merge l) = exact_pairwise_merge l :=
  mergeIter_of_step_none (step_exact_pairwise_merge_none l) _

/-! ## Claim C3 — fixed point of the eligibility relation -/

lemma findPair_none_of_step_none {l : List Net} (h : step l = none) :
    findPair (sortNets l) = none := by
  cases hfp : findPair (sortNets l) with
  | none => rfl
  | some p =>
      obtain ⟨a, b⟩ := p
      obtain ⟨_, _, helig⟩ := findPair_spec hfp
      obtain ⟨_, _, _, hsup⟩ := eligible_spec helig
      unfold step at h
      rw [hfp] at h
      simp only at h
      rw [hsup] at h
      simp at h

lemma findPair_none_pairs : ∀ L : List Net, findPair L = none →
    ∀ l1 (a b : Net) l2, L = l1 ++ a :: b :: l2 → eligible a b = false := by
  intro L
  induction L with
  | nil =>
      intro _ l1 a b l2 heq
      exact absurd heq (by simp)
  | cons x L' ih =>
      intro h l1 a b l2 heq
      cases L' with
      | nil =>
          have hlen := congrArg List.length heq
          simp [List.length_append] at hlen
          omega
      | cons y T =>
          rw [findPair] at h
          split at h
          · exact absurd h (by simp)
          · rename_i hne
            cases l1 with
            | nil =>
                rw [List.nil_append, List.cons.injEq, List.cons.injEq] at heq
                obtain ⟨rfl, rfl, _⟩ := heq
                exact Bool.not_eq_true _ ▸ hne
            | cons z l1' =>
                rw [List.cons_append, List.cons.injEq] at heq
                exact ih h l1' a b l2 heq.2

/-- C3 as the code satisfies it: in the sorted output of the aggregator,
no two *consecutive* networks are merge-eligible (the loop only ever
examines consecutive pairs of the sorted working list). -/
theorem c3_no_consecutive_eligible_pair (s l1 l2 : List Net) (a b : Net)
    (h : sortNets (exact_pairwise_merge s) = l1 ++ a :: b :: l2) :
    eligible a b = false :=
  findPair_none_pairs _
    (findPair_none_of_step_none (step_exact_pairwise_merge_none s)) l1 a b l2 h

theorem c3_no_consecutive_eligible_pair_witness :
    eligible ⟨0x0A000000, 24⟩ ⟨0x0A000200, 24⟩ = false :=
  c3_no_consecutive_eligible_pair [⟨0x0A000000, 24⟩, ⟨0x0A000200, 24⟩]
    [] [] _ _ (by decide)

/-- C3 as stated is false: on the input
`{10.0.0.0/24, 10.0.0.0/25, 10.0.1.0/24}` the aggregator's output still
contains the merge-eligible pair `10.0.0.0/24`, `10.0.1.0/24` — the
nested `10.0.0.0/25` sorts between them, so the consecutive-pair scan
never examines them and the loop exits without merging. -/
theorem c3_counterexample :
    (⟨0x0A000000, 24⟩ : Net) ∈
      exact_pairwise_merge
        [⟨0x0A000000, 24⟩, ⟨0x0A000000, 25⟩, ⟨0x0A000100, 24⟩] ∧
    (⟨0x0A000100, 24⟩ : Net) ∈
      exact_pairwise_merge
        [⟨0x0A000000, 24⟩, ⟨0x0A000000, 25⟩, ⟨0x0A000100, 24⟩] ∧
    eligible ⟨0x0A000000, 24⟩ ⟨0x0A000100, 24⟩ = true := by
  decide

/-! ## Claim C10 — termination -/

/-- C10, amended: every executed merge strictly decreases the size of the
working set (by one, or by two when the supernet was already present); a
full sweep finding no merge ends the loop, and the returned set is the
loop's exit state. -/
theorem c10_termination (l : List Net) :
    (∀ t, step l = some t → t.length < l.length) ∧
      (step l = none → exact_pairwise_merge l = l) ∧
      step (exact_pairwise_merge l) = none :=
  ⟨fun _ h => step_length h,
   fun h => mergeIter_of_step_none h _,
   step_exact_pairwise_merge_none l⟩

theorem c10_termination_witness :
    ([⟨0x0A000000, 24⟩] : List Net).length <
        ([⟨0x0A000000, 25⟩, ⟨0x0A000080, 25⟩] : List Net).length ∧
      exact_pairwise_merge [⟨0x0A000000, 24⟩] = [⟨0x0A000000, 24⟩] :=
  ⟨(c10_termination [⟨0x0A000000, 25⟩, ⟨0x0A000080, 25⟩]).1 _ (by decide),
   (c10_termination [⟨0x0A000000, 24⟩]).2.1 (by decide)⟩

/-- C10 as stated ("every executed merge decreases the cardinality by
one") is false: merging the siblings `10.0.0.0/25`, `10.0.0.128/25` when
their supernet `10.0.0.0/24` is already in the working set shrinks it
from 3 elements to 1 — `set.add` of an existing element is a no-op. -/
theorem c10_counterexample :
    step [⟨0x0A000000, 24⟩, ⟨0x0A000000, 25⟩, ⟨0x0A000080, 25⟩] =
        some [⟨0x0A000000, 24⟩] ∧
      ([⟨0x0A000000, 24⟩, ⟨0x0A000000, 25⟩, ⟨0x0A000080, 25⟩] : List Net).length
          = 3 ∧
      ([⟨0x0A000000, 24⟩] : List Net).length ≠ 3 - 1 := by
  decide

/-! ## Claim C2 — the missing safety check -/

/-- C2, amended: the diff generator performs no safety check and has no
error path — an original not covered by any final network is silently
left out of `to_delete` (see the counterexample) — but for the final set
actually produced by `exact_pairwise_merge` the claimed check condition
can never fail: every original is covered by some final network. -/
theorem c2_originals_always_covered (l : List Net) (hv : ValidNets l)
    (o : Net) (ho : o ∈ l) :
    ∃ f ∈ exact_pairwise_merge l, subnet_of o f = true :=
  mergeIter_coverup l.length l hv o ⟨o, ho, subnet_of_refl o⟩

theorem c2_originals_always_covered_witness :
    ValidNets [⟨0x0A000000, 25⟩, ⟨0x0A000080, 25⟩] ∧
      ∃ f ∈ exact_pairwise_merge [⟨0x0A000000, 25⟩, ⟨0x0A000080, 25⟩],
        subnet_of ⟨0x0A000000, 25⟩ f = true :=
  ⟨by decide, c2_originals_always_covered _ (by decide) _ (by decide)⟩

/-- C2 as stated is false of the code: the comparison logic of
`generate_changes_for_pl` (lines 131–148) reports no error of any kind.
On an original/final pair for which the claimed check fails (the single
original `10.0.0.0/24` is covered by no final network), it silently
returns the normal — here empty — edit lists rather than any fatal
error; no `AggregationInvariantViolation` (or any other error value or
assertion) exists anywhere in the program. -/
theorem c2_counterexample :
    (¬ ∀ o ∈ ([⟨0x0A000000, 24⟩] : List Net),
        ∃ f ∈ ([⟨0x0B000000, 24⟩] : List Net), subnet_of o f = true) ∧
      generate_changes_core [⟨0x0A000000, 24⟩] [⟨0x0B000000, 24⟩] = ([], []) := by
  decide

/-! ## Claim C5 — characterization of the diff lists -/

lemma mem_to_delete_of {original final : List Net} {d : Net} :
    d ∈ to_delete_of original final ↔
      d ∈ original ∧ d ∉ final ∧ ∃ f ∈ final, subnet_of d f = true := by
  unfold to_delete_of
  rw [List.mem_filter, mem_sortNets]
  simp only [Bool.and_eq_true, Bool.not_eq_true', decide_eq_false_iff_not,
    List.any_eq_true, and_assoc]

lemma mem_to_set_of {original final td : List Net} {f : Net} :
    f ∈ to_set_of original final td ↔
      f ∈ final ∧ f ∉ original ∧ ∃ d ∈ td, subnet_of d f = true := by
  unfold to_set_of
  rw [List.mem_filter, mem_sortNets]
  simp only [Bool.and_eq_true, Bool.not_eq_true', decide_eq_false_iff_not,
    List.any_eq_true, and_assoc]

lemma sorted_filter_sortNets (p : Net → Bool) (l : List Net) :
    List.Sorted netLE ((sortNets l).filter p) :=
  List.Pairwise.sublist (List.filter_sublist _) (List.sorted_insertionSort netLE l)

/-- C5: `to_delete` holds exactly the originals that are not present
unchanged in the final set and are covered by some final network;
`to_set` holds exactly the final networks not present unchanged in the
original set that cover at least one member of `to_delete`; both lists
ascend by `(base address, prefix length)`. -/
theorem c5_diff_lists (original : List Net) :
    (∀ d : Net,
        d ∈ (generate_changes_for_pl original).1.1 ↔
          d ∈ original ∧ d ∉ exact_pairwise_merge original ∧
            ∃ f ∈ exact_pairwise_merge original, subnet_of d f = true) ∧
      (∀ f : Net,
          f ∈ (generate_changes_for_pl original).1.2 ↔
            f ∈ exact_pairwise_merge original ∧ f ∉ original ∧
              ∃ d ∈ (generate_changes_for_pl original).1.1, subnet_of d f = true) ∧
      List.Sorted netLE (generate_changes_for_pl original).1.1 ∧
      List.Sorted netLE (generate_changes_for_pl original).1.2 :=
  ⟨fun _ => mem_to_delete_of,
   fun _ => mem_to_set_of,
   sorted_filter_sortNets _ _,
   sorted_filter_sortNets _ _⟩

/-! ## Claim C9 — the aggregator never mutates its argument -/

lemma getD_set_ne : ∀ (st : Store) (i j : Nat) (t : List Net), i ≠ j →
    (st.set i t).getD j [] = st.getD j [] := by
  intro st
  induction st with
  | nil => intro i j t _; rfl
  | cons x xs ih =>
      intro i j t hij
      cases i with
      | zero =>
          cases j with
          | zero => exact absurd rfl hij
          | succ j' => rfl
      | succ i' =>
          cases j with
          | zero => rfl
          | succ j' => exact ih i' j' t (by omega)

lemma getD_set_self : ∀ (st : Store) (i : Nat) (t : List Net), i < st.length →
    (st.set i t).getD i [] = t := by
  intro st
  induction st with
  | nil => intro i t h; simp at h
  | cons x xs ih =>
      intro i t h
      cases i with
      | zero => rfl
      | succ i' => exact ih i' t (by simpa using h)

lemma getD_append_left : ∀ (st st' : Store) (j : Nat), j < st.length →
    ((st ++ st').getD j [] : List Net) = st.getD j [] := by
  intro st
  induction st with
  | nil => intro st' j h; simp at h
  | cons x xs ih =>
      intro st' j h
      cases j with
      | zero => rfl
      | succ j' => exact ih st' j' (by simpa using h)

lemma getD_append_self (st : Store) (v : List Net) :
    ((st ++ [v]).getD st.length [] : List Net) = v := by
  induction st with
  | nil => rfl
  | cons x xs ih => exact ih

lemma mergeIterSt_frame : ∀ (fuel r : Nat) (st : Store) (q : Nat), q ≠ r →
    (mergeIterSt fuel r st).getD q [] = st.getD q [] := by
  intro fuel
  induction fuel with
  | zero => intro _ _ _ _; rfl
  | succ f ih =>
      intro r st q hq
      rw [mergeIterSt]
      unfold stepSt
      cases step (st.getD r []) with
      | none => rfl
      | some t =>
          rw [ih r (st.set r t) q hq, getD_set_ne st r q t (fun h => hq h.symm)]

lemma mergeIterSt_length : ∀ (fuel r : Nat) (st : Store),
    (mergeIterSt fuel r st).length = st.length := by
  intro fuel
  induction fuel with
  | zero => intro _ _; rfl
  | succ f ih =>
      intro r st
      rw [mergeIterSt]
      unfold stepSt
      cases step (st.getD r []) with
      | none => rfl
      | some t => rw [ih r (st.set r t), List.length_set]

/-- The store-level loop computes, in its own slot, exactly the value-level
loop of the slot's initial contents. -/
lemma mergeIterSt_getD : ∀ (fuel r : Nat) (st : Store), r < st.length →
    (mergeIterSt fuel r st).getD r [] = mergeIter fuel (st.getD r []) := by
  intro fuel
  induction fuel with
  | zero => intro _ _ _; rfl
  | succ f ih =>
      intro r st hr
      rw [mergeIterSt, mergeIter]
      unfold stepSt
      cases step (st.getD r []) with
      | none => rfl
      | some t =>
          rw [ih r (st.set r t) (by rw [List.length_set]; exact hr),
            getD_set_self st r t hr]

/-- C9: at store level, after `exact_pairwise_merge` and after the
enclosing `generate_changes_for_pl`, every pre-existing set object — in
particular the caller's argument — still holds exactly the networks it
held before the call; and the object the aggregator returns holds the
value-level `exact_pairwise_merge` of the argument's contents. -/
theorem c9_no_mutation (st : Store) (r q : Nat) (hq : q < st.length) :
    (exact_pairwise_merge_st st r).2.getD q [] = st.getD q [] ∧
      ((generate_changes_for_pl_st st r).2.2).getD q [] = st.getD q [] ∧
      (exact_pairwise_merge_st st r).2.getD (exact_pairwise_merge_st st r).1 []
        = exact_pairwise_merge (st.getD r []) := by
  have hframe : ∀ (st' : Store) (r' q' : Nat), q' < st'.length →
      (exact_pairwise_merge_st st' r').2.getD q' [] = st'.getD q' [] := by
    intro st' r' q' hq'
    unfold exact_pairwise_merge_st
    simp only
    rw [mergeIterSt_frame _ _ _ _ (by omega)]
    exact getD_append_left st' [st'.getD r' []] q' hq'
  refine ⟨hframe st r q hq, ?_, ?_⟩
  · unfold generate_changes_for_pl_st
    simp only
    rw [hframe (st ++ [st.getD r []]) st.length q (by simp; omega)]
    exact getD_append_left st [st.getD r []] q hq
  · unfold exact_pairwise_merge_st
    simp only
    rw [mergeIterSt_getD _ _ _ (by simp), getD_append_self]
    rfl

theorem c9_no_mutation_witness :
    (0 : Nat) < ([[⟨0x0A000000, 25⟩, ⟨0x0A000080, 25⟩]] : Store).length ∧
      ((exact_pairwise_merge_st [[⟨0x0A000000, 25⟩, ⟨0x0A000080, 25⟩]] 0).2.getD 0 []
          = ([[⟨0x0A000000, 25⟩, ⟨0x0A000080, 25⟩]] : Store).getD 0 [] ∧
        ((generate_changes_for_pl_st [[⟨0x0A000000, 25⟩, ⟨0x0A000080, 25⟩]] 0).2.2).getD 0 []
          = ([[⟨0x0A000000, 25⟩, ⟨0x0A000080, 25⟩]] : Store).getD 0 [] ∧
        (exact_pairwise_merge_st [[⟨0x0A000000, 25⟩, ⟨0x0A000080, 25⟩]] 0).2.getD
            (exact_pairwise_merge_st [[⟨0x0A000000, 25⟩, ⟨0x0A000080, 25⟩]] 0).1 []
          = exact_pairwise_merge
              (([[⟨0x0A000000, 25⟩, ⟨0x0A000080, 25⟩]] : Store).getD 0 [])) :=
  ⟨by decide, c9_no_mutation [[⟨0x0A000000, 25⟩, ⟨0x0A000080, 25⟩]] 0 0 (by decide)⟩

/-! ## Parser lemmas (claims C6–C8) -/

lemma pyAdd_of_mem {v : Net} {l : List Net} (h : v ∈ l) : pyAdd v l = l := by
  unfold pyAdd
  rw [if_pos h]

lemma applyMatches_mono {n : Net} {k : List Char} :
    ∀ (ms : List (List Char × List Char)) (m : PlMap), n ∈ m k →
      n ∈ applyMatches ms m k := by
  intro ms
  induction ms with
  | nil => exact fun m h => h
  | cons p rest ih =>
      intro m h
      obtain ⟨nm, cidr⟩ := p
      rw [applyMatches]
      apply ih
      cases hip : ipv4NetworkOfChars cidr with
      | none => exact h
      | some net =>
          simp only
          by_cases hk : k = nm
          · rw [if_pos hk]
            exact mem_pyAdd.mpr (Or.inr h)
          · rw [if_neg hk]
            exact h

lemma applyMatches_inserts {nm cidr : List Char} {net : Net} :
    ∀ (ms : List (List Char × List Char)) (m : PlMap), (nm, cidr) ∈ ms →
      ipv4NetworkOfChars cidr = some net → net ∈ applyMatches ms m nm := by
  intro ms
  induction ms with
  | nil => intro m h; simp at h
  | cons p rest ih =>
      intro m hmem hip
      obtain ⟨nm', cidr'⟩ := p
      rcases List.mem_cons.mp hmem with heq | hrest
      · rw [Prod.mk.injEq] at heq
        obtain ⟨rfl, rfl⟩ := heq
        rw [applyMatches]
        apply applyMatches_mono
        simp only [hip, if_true]
        exact mem_pyAdd.mpr (Or.inl rfl)
      · rw [applyMatches]
        exact ih _ hrest hip

lemma applyMatches_inert :
    ∀ (ms : List (List Char × List Char)) (m : PlMap),
      (∀ nm cidr net, (nm, cidr) ∈ ms →
        ipv4NetworkOfChars cidr = some net → net ∈ m nm) →
      applyMatches ms m = m := by
  intro ms
  induction ms with
  | nil => exact fun m _ => rfl
  | cons p rest ih =>
      intro m hall
      obtain ⟨nm, cidr⟩ := p
      rw [applyMatches]
      have hupd :
          (match ipv4NetworkOfChars cidr with
           | some net => fun k => if k = nm then pyAdd net (m k) else m k
           | none => m) = m := by
        cases hip : ipv4NetworkOfChars cidr with
        | none => rfl
        | some net =>
            simp only
            funext k
            by_cases hk : k = nm
            · subst hk
              rw [if_pos rfl]
              exact pyAdd_of_mem (hall k cidr net (List.mem_cons_self ..) hip)
            · rw [if_neg hk]
      rw [hupd]
      exact ih m (fun nm' cidr' net' hm hip =>
        hall nm' cidr' net' (List.mem_cons_of_mem _ hm) hip)

/-- A second pass over the same match list changes nothing: every network
it would add is already present after the first pass. -/
lemma applyMatches_idem (ms : List (List Char × List Char)) (m : PlMap) :
    applyMatches ms (applyMatches ms m) = applyMatches ms m :=
  applyMatches_inert ms (applyMatches ms m)
    (fun _ _ _ hm hip => applyMatches_inserts ms m hm hip)

lemma parseAux_append : ∀ (xs ys : List (List Char)) (m : PlMap),
    parseAux (xs ++ ys) m = parseAux ys (parseAux xs m) := by
  intro xs
  induction xs with
  | nil => exact fun ys m => rfl
  | cons x xs' ih => exact fun ys m => ih ys (applyMatches (findAll x) m)

/-- A well-formed IPv4 statement line. -/
def lineX24 : List Char := "set policy-options prefix-list X 10.0.0.0/24".data

/-- The same statement followed by trailing garbage. -/
def lineX24g : List Char :=
  "set policy-options prefix-list X 10.0.0.0/24 trailing garbage".data

/-- The spec's well-formed colon-hex IPv6 statement line. -/
def lineV6 : List Char := "set policy-options prefix-list X 2001:db8::/32".data

/-! ## Claim C6 — address families accepted by the parser -/

/-- C6, amended: the parser accepts only IPv4 dotted-quad CIDR lines —
the pattern's address group matches digits and dots only, so a colon-hex
IPv6 statement never matches.  The well-formed IPv4 line adds its network
to group `X`; the corresponding well-formed IPv6 line contributes nothing
to any group. -/
theorem c6_ipv4_only (k : List Char) :
    parse_prefix_lists [lineX24] k
        = (if k = "X".data then [⟨0x0A000000, 24⟩] else []) ∧
      parse_prefix_lists [lineV6] k = [] := by
  have h4 : findAll lineX24 = [("X".data, "10.0.0.0/24".data)] := by decide
  have h6 : findAll lineV6 = [] := by decide
  have hip : ipv4NetworkOfChars "10.0.0.0/24".data = some ⟨0x0A000000, 24⟩ := by
    decide
  constructor
  · show applyMatches (findAll lineX24) (fun _ => []) k = _
    rw [h4]
    simp only [applyMatches, hip]
    by_cases hk : k = "X".data <;> simp [hk, pyAdd]
  · show applyMatches (findAll lineV6) (fun _ => []) k = []
    rw [h6]
    rfl

/-- C6 as stated is false: on the canonical well-formed line whose CIDR
token is colon-hex IPv6, `2001:db8::/32`, the parser adds nothing to any
group — the whole parse result is the empty map. -/
theorem c6_counterexample :
    parse_prefix_lists [lineV6] = (fun _ => ([] : List Net)) := by
  have h6 : findAll lineV6 = [] := by decide
  funext k
  show applyMatches (findAll lineV6) (fun _ => []) k = []
  rw [h6]
  rfl

/-! ## Claim C7 — there is no duplicate counter -/

/-- C7, amended: the parser returns only the per-group network sets and
maintains no duplicate counter anywhere; a repeated line leaves the
result completely unchanged (idempotent set insertion). -/
theorem c7_duplicate_line_no_effect (lines : List (List Char)) (ln : List Char) :
    parse_prefix_lists (lines ++ [ln, ln]) = parse_prefix_lists (lines ++ [ln]) := by
  unfold parse_prefix_lists
  rw [parseAux_append, parseAux_append]
  exact applyMatches_idem (findAll ln) (parseAux lines (fun _ => []))

/-- C7 as stated is false: the parser's entire output on an input with a
duplicated statement equals its output with the statement appearing once,
so the output contains no duplicate counter that could distinguish the
two (the claim requires the counter to read 1 resp. 0 on them); the set
itself has size 1 as expected. -/
theorem c7_counterexample :
    parse_prefix_lists [lineX24, lineX24] = parse_prefix_lists [lineX24] ∧
      (parse_prefix_lists [lineX24, lineX24] "X".data).length = 1 := by
  constructor
  · show applyMatches (findAll lineX24) (applyMatches (findAll lineX24) (fun _ => []))
        = applyMatches (findAll lineX24) (fun _ => [])
    exact applyMatches_idem (findAll lineX24) (fun _ => [])
  · decide

/-! ## Claim C8 — full-line matching is not required -/

/-- C8, amended: the parser searches for the statement anywhere inside
the line (`findall`), so a well-formed statement followed by trailing
garbage is parsed exactly as the clean statement is — the garbage is
ignored rather than invalidating the line. -/
theorem c8_trailing_garbage_still_parsed :
    parse_prefix_lists [lineX24g] = parse_prefix_lists [lineX24] := by
  have h4 : findAll lineX24 = [("X".data, "10.0.0.0/24".data)] := by decide
  have hg : findAll lineX24g = [("X".data, "10.0.0.0/24".data)] := by decide
  show applyMatches (findAll lineX24g) (fun _ => [])
      = applyMatches (findAll lineX24) (fun _ => [])
  rw [h4, hg]

/-- C8 as stated is false: the line
`set policy-options prefix-list X 10.0.0.0/24 trailing garbage` is *not*
silently skipped — it contributes `10.0.0.0/24` to group `X`. -/
theorem c8_counterexample :
    parse_prefix_lists [lineX24g] "X".data = [⟨0x0A000000, 24⟩] := by
  decide
